import Mathlib

/-!
Shallow embedding of the CosHash digest algorithm (src/src/coshash.cpp).

Byte sequences are `List Nat` (each element a byte value), 32-bit unsigned
words are `Nat` taken modulo `U32 = 2^32` wherever the C++ code wraps.
The one non-integer ingredient, the Phase C quantity
`(int32_t) floor(sin(a * (double) temp) * c)`, is floating point and is
abstracted as an explicit parameter `f : Nat → Nat → Nat → Int` of the
block transformation: every theorem below holds for all instantiations of
`f`, in particular for the IEEE-754 double-precision one the C++ uses.
-/

/-- `2^32`, the modulus of all 32-bit unsigned arithmetic in the code. -/
def U32 : Nat := 4294967296

/-- `BLOCK_SIZE` from coshash.cpp. -/
def BLOCK_SIZE : Nat := 64

/-- The zero-filling `while` loop of `pad_input`, run with explicit fuel.
The loop appends at most 63 zero bytes, so any fuel of at least 63 realises
the loop exactly; `pad_input` below calls it with fuel 64. -/
def padZerosFuel : Nat → List Nat → List Nat
  | 0, l => l
  | fuel + 1, l => if l.length % 64 = 0 then l else padZerosFuel fuel (l ++ [0])

/-- `pad_input` from coshash.cpp: append `0x80`, then zeros until the length
is a multiple of `BLOCK_SIZE = 64`. -/
def pad_input (input : List Nat) : List Nat :=
  padZerosFuel 64 (input ++ [0x80])

/-- `derive_seed` from coshash.cpp: `seed` starts as the input length cast to
`uint32_t` and each byte is folded in by
`seed ^= input[i] + 0x9e3779b9 + (seed << 6) + (seed >> 2)`,
every operation wrapping at 32 bits. -/
def derive_seed (input : List Nat) : Nat :=
  input.foldl
    (fun seed x => seed ^^^ ((x + 0x9e3779b9 + (seed <<< 6) % U32 + seed >>> 2) % U32))
    (input.length % U32)

/-- The seed-derivation algorithm exactly as the specification words it:
start with `seed = length(Input)`; for each byte `x` in order,
`seed = seed XOR (x + 0x9e3779b9 + (seed << 6) + (seed >> 2))`, all
arithmetic performed modulo 2^32.  Written from the spec, to be compared
with `derive_seed`, which is written from the code. -/
def derive_seed_spec (input : List Nat) : Nat :=
  input.foldl
    (fun seed x => seed ^^^ ((x + 0x9e3779b9 + seed <<< 6 + seed >>> 2) % U32))
    input.length

/-- `initial_mix` from coshash.cpp: seed/index combination followed by the
MurmurHash-style avalanche finisher, on 32-bit words. -/
def initial_mix (seed : Nat) (index : Nat) : Nat :=
  let value := seed ^^^ (index * 0x85ebca6b) % U32
  let value := value ^^^ value >>> 16
  let value := value * 0x85ebca6b % U32
  let value := value ^^^ value >>> 13
  let value := value * 0xc2b2ae35 % U32
  value ^^^ value >>> 16

/-- Big-endian packing of the four bytes of `block` starting at offset `o`,
as done by `block[o] << 24 | block[o+1] << 16 | block[o+2] << 8 | block[o+3]`. -/
def be32 (block : List Nat) (o : Nat) : Nat :=
  block.getD o 0 <<< 24 ||| block.getD (o + 1) 0 <<< 16 |||
    block.getD (o + 2) 0 <<< 8 ||| block.getD (o + 3) 0

/-- `derive_params` from coshash.cpp: parameters `a`, `b`, `c` come from the
first 12 bytes of the block, big-endian 4 bytes each, with fixed fallback
constants when the block is too short. -/
def derive_params (block : List Nat) : Nat × Nat × Nat :=
  ( if 4 ≤ block.length then be32 block 0 else 0x1f1f1f1f
  , if 8 ≤ block.length then be32 block 4 else 0x3c3c3c3c
  , if 12 ≤ block.length then be32 block 8 else 0x7a7a7a7a )

/-- `rotate_left` from coshash.cpp: `(value << shift) | (value >> (32 - shift))`
on `uint32_t` (the left shift wraps at 32 bits). -/
def rotate_left (value : Nat) (shift : Nat) : Nat :=
  (value <<< shift) % U32 ||| value >>> (32 - shift)

/-- `std::swap(l[i], l[j])` on a list, both reads taken from the original
list, as `derive_permutation` does on its `std::vector<int>`. -/
def listSwap (l : List Nat) (i j : Nat) : List Nat :=
  (l.set i (l.getD j 0)).set j (l.getD i 0)

/-- The seed of `derive_permutation`: fold up to the first 4 block bytes by
`seed = (seed << 8) | block[i]` on `uint32_t`. -/
def permSeed (block : List Nat) : Nat :=
  (block.take 4).foldl (fun seed b => (seed <<< 8) % U32 ||| b) 0

/-- The Fisher–Yates loop of `derive_permutation`, from index `i` down to 1:
step the linear congruential seed, draw `j = seed % (i + 1)`, swap. -/
def fisherYates : Nat → Nat → List Nat → Nat × List Nat
  | 0, seed, perm => (seed, perm)
  | i + 1, seed, perm =>
      let seed2 := (seed * 1664525 + 1013904223) % U32
      fisherYates i seed2 (listSwap perm (i + 1) (seed2 % (i + 2)))

/-- `derive_permutation` from coshash.cpp: identity permutation of size 16,
shuffled by a seeded Fisher–Yates from index 15 down to 1. -/
def derive_permutation (block : List Nat) : List Nat :=
  (fisherYates 15 (permSeed block) (List.range 16)).2

/-- `compress_state` from coshash.cpp: each state word becomes 4 big-endian
bytes of the output. -/
def compress_state : List Nat → List Nat
  | [] => []
  | w :: ws =>
      ((w >>> 24) &&& 0xFF) :: ((w >>> 16) &&& 0xFF) :: ((w >>> 8) &&& 0xFF) ::
        (w &&& 0xFF) :: compress_state ws

/-- The `segment` value the absorb loop of `cos_hash` reads for state index
`i`: big-endian 4 bytes at offset `i*4` when available, otherwise the
left-shift/OR packing of the remaining trailing bytes. -/
def absorb_word (block : List Nat) (i : Nat) : Nat :=
  if i * 4 + 4 ≤ block.length then be32 block (i * 4)
  else (block.drop (i * 4)).foldl (fun seg bb => (seg <<< 8) % U32 ||| bb) 0

/-- Phase B of `cos_hash` (absorb): in-place loop
`state[i] = (state[i] + segment) % 2^32` for `i = 0..15`. -/
def absorb (blk : List Nat) (state : List Nat) : List Nat :=
  (List.range 16).foldl (fun st i => st.set i ((st.getD i 0 + absorb_word blk i) % U32)) state

/-- One word of Phase C of `cos_hash`: `temp = state[i] ^ b`;
`mix = f a temp c` stands for `(int32_t) floor(sin(a * (double) temp) * c)`;
the `uint32_t` cast of `mix` is added with 32-bit wraparound. -/
def nlmix (f : Nat → Nat → Nat → Int) (a b c : Nat) (w : Nat) : Nat :=
  (w + (f a (w ^^^ b) c % (4294967296 : Int)).toNat) % U32

/-- Phase C of `cos_hash` (nonlinear mix): in-place loop applying `nlmix`
to each of the 16 state words. -/
def nonlinear_phase (f : Nat → Nat → Nat → Int) (a b c : Nat) (state : List Nat) : List Nat :=
  (List.range 16).foldl (fun st i => st.set i (nlmix f a b c (st.getD i 0))) state

/-- Phase D of `cos_hash` (permute): `newState[i] = state[perm[i]]`. -/
def apply_perm (perm : List Nat) (state : List Nat) : List Nat :=
  perm.map (fun p => state.getD p 0)

/-- One step of Phase E of `cos_hash` (diffuse), exactly the loop body:
`neighbor = state[(i+1) % 16]`, `rot = state[i] & 0x1F`,
`state[i] ^= rotate_left(neighbor, rot)`, in place. -/
def diffuse_step (st : List Nat) (i : Nat) : List Nat :=
  st.set i (st.getD i 0 ^^^ rotate_left (st.getD ((i + 1) % 16) 0) (st.getD i 0 &&& 0x1F))

/-- The first `k` steps of Phase E, run in ascending index order on the
shared state. -/
def partialDiffuse (k : Nat) (state : List Nat) : List Nat :=
  (List.range k).foldl diffuse_step state

/-- Phase E of `cos_hash` (diffuse): all 16 in-place steps. -/
def diffuse (state : List Nat) : List Nat :=
  partialDiffuse 16 state

/-- The body of the per-block loop of `cos_hash`: Phases A–E in order. -/
def process_block (f : Nat → Nat → Nat → Int) (state : List Nat) (blk : List Nat) : List Nat :=
  let p := derive_params blk
  diffuse (apply_perm (derive_permutation blk) (nonlinear_phase f p.1 p.2.1 p.2.2 (absorb blk state)))

/-- Slicing of the padded input into `n` consecutive 64-byte blocks, as the
iterator arithmetic in `cos_hash` does. -/
def toBlocks : Nat → List Nat → List (List Nat)
  | 0, _ => []
  | n + 1, l => l.take 64 :: toBlocks n (l.drop 64)

/-- The block list `cos_hash` iterates over: `num_blocks = length / 64`
consecutive 64-byte slices. -/
def blocksOf (l : List Nat) : List (List Nat) :=
  toBlocks (l.length / 64) l

/-- `cos_hash` from coshash.cpp: pad, derive the seed from the unpadded
input, initialise 16 state words with `initial_mix`, run the block loop,
compress.  `f` abstracts the floating-point Phase C quantity (see the
file docstring). -/
def cos_hash (f : Nat → Nat → Nat → Int) (input : List Nat) : List Nat :=
  let padded := pad_input input
  let seed := derive_seed input
  let state0 := (List.range 16).map (fun i => initial_mix seed i)
  compress_state ((blocksOf padded).foldl (process_block f) state0)

/-- Inverse of the padding transformation: drop the trailing zero bytes and
the final `0x80` marker. -/
def unpad (l : List Nat) : List Nat :=
  ((l.reverse.dropWhile (fun b => b == 0)).drop 1).reverse

/-! ### Padding lemmas -/

theorem padZerosFuel_eq : ∀ (fuel : Nat) (l : List Nat),
    (64 - l.length % 64) % 64 ≤ fuel →
    padZerosFuel fuel l = l ++ List.replicate ((64 - l.length % 64) % 64) 0 := by
  intro fuel
  induction fuel with
  | zero =>
    intro l h
    simp [padZerosFuel, show (64 - l.length % 64) % 64 = 0 by omega]
  | succ n ih =>
    intro l h
    by_cases h0 : l.length % 64 = 0
    · simp [padZerosFuel, h0, show (64 - l.length % 64) % 64 = 0 by omega]
    · have h1 : (64 - (l ++ [0]).length % 64) % 64 = (64 - l.length % 64) % 64 - 1 := by
        simp only [List.length_append, List.length_cons, List.length_nil]
        omega
      have h2 : (64 - (l ++ [0]).length % 64) % 64 ≤ n := by omega
      have h3 := ih (l ++ [0]) h2
      rw [h1] at h3
      simp only [padZerosFuel]
      rw [if_neg h0, h3, List.append_assoc]
      congr 1
      rw [show (64 - l.length % 64) % 64 = ((64 - l.length % 64) % 64 - 1) + 1 by omega,
        List.replicate_succ]
      simp

theorem pad_input_eq (input : List Nat) :
    pad_input input
      = input ++ 0x80 :: List.replicate ((64 - (input.length + 1) % 64) % 64) 0 := by
  have h : (64 - (input ++ [0x80]).length % 64) % 64 ≤ 64 := by omega
  rw [pad_input, padZerosFuel_eq 64 _ h]
  simp [List.append_assoc]

theorem dropWhile_zeros (t : List Nat) :
    ∀ k : Nat, (List.replicate k 0 ++ 0x80 :: t).dropWhile (fun b => b == 0) = 0x80 :: t := by
  intro k
  induction k with
  | zero => simp [List.dropWhile_cons]
  | succ n ih => simp [List.replicate_succ, List.dropWhile_cons, ih]

theorem unpad_pad (x : List Nat) : unpad (pad_input x) = x := by
  rw [pad_input_eq, unpad]
  have h1 : (x ++ 0x80 :: List.replicate ((64 - (x.length + 1) % 64) % 64) 0).reverse
      = List.replicate ((64 - (x.length + 1) % 64) % 64) 0 ++ 0x80 :: x.reverse := by
    simp [List.reverse_append]
  rw [h1, dropWhile_zeros]
  simp

/-- Claim C4: `pad_input` appends one `0x80` byte and then the minimum number
of zero bytes making the length a multiple of 64; the padded length is at
least the original length plus one and a positive multiple of 64, and the
empty input pads to one 64-byte block `0x80` followed by 63 zeros. -/
theorem pad_input_correct (input : List Nat) :
    pad_input input
      = input ++ 0x80 :: List.replicate ((64 - (input.length + 1) % 64) % 64) 0
    ∧ (pad_input input).length % 64 = 0
    ∧ 0 < (pad_input input).length
    ∧ input.length + 1 ≤ (pad_input input).length
    ∧ (∀ m : Nat, (input.length + 1 + m) % 64 = 0 →
        (64 - (input.length + 1) % 64) % 64 ≤ m)
    ∧ pad_input [] = 0x80 :: List.replicate 63 0 := by
  have he := pad_input_eq input
  have hl : (pad_input input).length
      = input.length + 1 + (64 - (input.length + 1) % 64) % 64 := by
    rw [he]
    simp only [List.length_append, List.length_cons, List.length_replicate]
    omega
  refine ⟨he, by omega, by omega, by omega, fun m hm => by omega, by decide⟩

/-- Witness for C4 at the empty input: the minimality bound holds for the
concrete zero-count 63. -/
theorem pad_input_correct_witness :
    (64 - (([] : List Nat).length + 1) % 64) % 64 ≤ 63 :=
  (pad_input_correct []).2.2.2.2.1 63 (by decide)

/-- Claim C10: `pad_input` is injective — the original input is recovered
from the padded form by stripping the trailing zeros and the `0x80` marker. -/
theorem pad_input_injective (x y : List Nat) (h : pad_input x = pad_input y) : x = y := by
  have h2 := congrArg unpad h
  rwa [unpad_pad, unpad_pad] at h2

/-- Witness for C10 at a concrete input. -/
theorem pad_input_injective_witness : [3, 1] = [3, 1] :=
  pad_input_injective [3, 1] [3, 1] (by decide)

/-! ### Seed derivation -/

theorem foldl_congr_fun {α β : Type} (f g : β → α → β) (hfg : ∀ s x, f s x = g s x) :
    ∀ (l : List α) (s : β), l.foldl f s = l.foldl g s := by
  intro l
  induction l with
  | nil => intro s; rfl
  | cons a t ih => intro s; rw [List.foldl_cons, List.foldl_cons, hfg, ih]

/-- Claim C5: `derive_seed` computes exactly the rolling mix the
specification describes — seed initialised to the input length, then
`seed = seed XOR (x + 0x9e3779b9 + (seed << 6) + (seed >> 2))` per byte,
all arithmetic modulo 2^32 (for every input of realisable length, i.e.
below 2^32, where the `uint32_t` cast of the length is the identity). -/
theorem derive_seed_matches_spec (input : List Nat) (h : input.length < U32) :
    derive_seed input = derive_seed_spec input := by
  rw [derive_seed, derive_seed_spec, Nat.mod_eq_of_lt h]
  exact foldl_congr_fun _ _ (fun s x => by
    simp only [Nat.shiftLeft_eq, Nat.shiftRight_eq_div_pow, U32]
    congr 1
    omega) input input.length

/-- Witness for C5 at the two-byte input `"hi"`. -/
theorem derive_seed_matches_spec_witness :
    derive_seed [104, 105] = derive_seed_spec [104, 105] :=
  derive_seed_matches_spec [104, 105] (by decide)

/-! ### Determinism -/

/-- Claim C2: `cos_hash` is a pure function of its input (and of the
abstracted Phase C quantity), so two invocations on the same byte sequence
yield identical outputs. -/
theorem cos_hash_deterministic (f : Nat → Nat → Nat → Int) (x : List Nat) :
    cos_hash f x = cos_hash f x := rfl

/-! ### Rotation -/

/-- Claim C9: `rotate_left` by zero is the identity on 32-bit values, and
the Phase E rotation amount `state[i] & 0x1F` is always strictly below 32. -/
theorem rotate_left_zero_noop :
    (∀ v : Nat, v < U32 → rotate_left v 0 = v)
    ∧ ∀ (state : List Nat) (i : Nat), state.getD i 0 &&& 0x1F < 32 := by
  constructor
  · intro v hv
    rw [rotate_left]
    rw [show 32 - 0 = 32 from rfl, Nat.shiftRight_eq_div_pow,
      Nat.div_eq_of_lt (lt_of_lt_of_le hv (by norm_num [U32]))]
    rw [Nat.shiftLeft_eq, pow_zero, Nat.mul_one, Nat.mod_eq_of_lt hv, Nat.or_zero]
  · intro state i
    exact lt_of_le_of_lt Nat.and_le_right (by norm_num)

/-- Witness for C9 at a concrete 32-bit value. -/
theorem rotate_left_zero_noop_witness : rotate_left 12345 0 = 12345 :=
  rotate_left_zero_noop.1 12345 (by decide)

/-! ### Permutation lemmas -/

theorem cons_getD_set_perm (a : Nat) :
    ∀ (t : List Nat) (j : Nat), j < t.length →
      List.Perm (t.getD j 0 :: t.set j a) (a :: t) := by
  intro t
  induction t with
  | nil => intro j hj; simp at hj
  | cons b s ih =>
    intro j hj
    cases j with
    | zero =>
      simpa using List.Perm.swap a b s
    | succ k =>
      have hk : k < s.length := by simpa using hj
      have h1 := ih k hk
      have h2 : List.Perm (s.getD k 0 :: b :: s.set k a) (b :: s.getD k 0 :: s.set k a) :=
        List.Perm.swap b (s.getD k 0) (s.set k a)
      have h3 : List.Perm (b :: s.getD k 0 :: s.set k a) (b :: a :: s) := List.Perm.cons b h1
      have h4 : List.Perm (b :: a :: s) (a :: b :: s) := List.Perm.swap a b s
      simpa using (h2.trans h3).trans h4

theorem listSwap_perm : ∀ (l : List Nat) (i j : Nat), i < l.length → j < l.length →
    List.Perm (listSwap l i j) l := by
  intro l
  induction l with
  | nil => intro i j hi _; simp at hi
  | cons a t ih =>
    intro i j hi hj
    cases i with
    | zero =>
      cases j with
      | zero =>
        simp only [listSwap, List.getD_cons_zero, List.set_cons_zero]
        exact List.Perm.refl _
      | succ k =>
        have hk : k < t.length := by simpa using hj
        simpa [listSwap] using cons_getD_set_perm a t k hk
    | succ m =>
      cases j with
      | zero =>
        have hm : m < t.length := by simpa using hi
        simpa [listSwap] using cons_getD_set_perm a t m hm
      | succ k =>
        have hm : m < t.length := by simpa using hi
        have hk : k < t.length := by simpa using hj
        simpa [listSwap] using List.Perm.cons a (ih m k hm hk)

theorem fisherYates_snd_perm :
    ∀ (i seed : Nat) (p : List Nat), i < p.length →
      List.Perm (fisherYates i seed p).2 p := by
  intro i
  induction i with
  | zero => intro seed p _; exact List.Perm.refl p
  | succ n ih =>
    intro seed p hp
    simp only [fisherYates]
    have hj : ((seed * 1664525 + 1013904223) % U32) % (n + 2) < p.length :=
      lt_of_lt_of_le (Nat.mod_lt _ (by omega)) (by omega)
    have hswap := listSwap_perm p (n + 1) (((seed * 1664525 + 1013904223) % U32) % (n + 2)) hp hj
    have hn : n < (listSwap p (n + 1) (((seed * 1664525 + 1013904223) % U32) % (n + 2))).length := by
      rw [hswap.length_eq]; omega
    exact (ih _ _ hn).trans hswap

theorem derive_permutation_perm (block : List Nat) :
    List.Perm (derive_permutation block) (List.range 16) :=
  fisherYates_snd_perm 15 (permSeed block) (List.range 16) (by simp)

theorem map_getD_range : ∀ l : List Nat, (List.range l.length).map (fun i => l.getD i 0) = l := by
  intro l
  induction l with
  | nil => rfl
  | cons a t ih =>
    rw [List.length_cons, List.range_succ_eq_map, List.map_cons, List.map_map]
    rw [List.map_congr_left (fun i _ => show ((fun i => (a :: t).getD i 0) ∘ Nat.succ) i
      = (fun i => t.getD i 0) i from by simp)]
    rw [ih, List.getD_cons_zero]

theorem apply_perm_of_perm (perm state : List Nat) (hp : List.Perm perm (List.range 16))
    (hs : state.length = 16) : List.Perm (apply_perm perm state) state := by
  have h2 : (List.range 16).map (fun p => state.getD p 0) = state := by
    rw [← hs, map_getD_range]
  have h1 := List.Perm.map (fun p => state.getD p 0) hp
  rw [h2] at h1
  exact h1

/-- Claim C7: `derive_permutation` always returns 16 distinct indices in
`[0,15]` — a bijection over state indices — so the permute phase
`newState[i] = state[perm[i]]` only reorders the state words. -/
theorem derive_permutation_bijection (block : List Nat) :
    (derive_permutation block).length = 16
    ∧ (derive_permutation block).Nodup
    ∧ (∀ x ∈ derive_permutation block, x < 16)
    ∧ ∀ state : List Nat, state.length = 16 →
        List.Perm (apply_perm (derive_permutation block) state) state := by
  have hp := derive_permutation_perm block
  refine ⟨?_, ?_, ?_, ?_⟩
  · rw [hp.length_eq, List.length_range]
  · exact hp.nodup_iff.mpr (List.nodup_range 16)
  · intro x hx
    simpa using hp.mem_iff.mp hx
  · intro state hs
    exact apply_perm_of_perm _ _ hp hs

/-- Witness for C7: the block-independent shuffle of the empty block applied
to a concrete 16-word state is a rearrangement of that state. -/
theorem derive_permutation_bijection_witness :
    List.Perm
      (apply_perm (derive_permutation [])
        [0, 1, 2, 3, 4, 5, 6, 7, 8, 9, 10, 11, 12, 13, 14, 15])
      [0, 1, 2, 3, 4, 5, 6, 7, 8, 9, 10, 11, 12, 13, 14, 15] :=
  (derive_permutation_bijection []).2.2.2 _ (by decide)

/-! ### Length preservation and output size -/

theorem length_foldl_set (g : List Nat → Nat → Nat) :
    ∀ (r : List Nat) (s : List Nat),
      (r.foldl (fun st i => st.set i (g st i)) s).length = s.length := by
  intro r
  induction r with
  | nil => intro s; rfl
  | cons a t ih => intro s; rw [List.foldl_cons, ih, List.length_set]

theorem absorb_length (blk state : List Nat) : (absorb blk state).length = state.length :=
  length_foldl_set (fun st i => (st.getD i 0 + absorb_word blk i) % U32) (List.range 16) state

theorem nonlinear_phase_length (f : Nat → Nat → Nat → Int) (a b c : Nat) (state : List Nat) :
    (nonlinear_phase f a b c state).length = state.length :=
  length_foldl_set (fun st i => nlmix f a b c (st.getD i 0)) (List.range 16) state

theorem apply_perm_length (perm state : List Nat) :
    (apply_perm perm state).length = perm.length := by
  simp [apply_perm]

theorem partialDiffuse_length (k : Nat) (state : List Nat) :
    (partialDiffuse k state).length = state.length :=
  length_foldl_set
    (fun st i => st.getD i 0 ^^^ rotate_left (st.getD ((i + 1) % 16) 0) (st.getD i 0 &&& 0x1F))
    (List.range k) state

theorem compress_state_length : ∀ s : List Nat, (compress_state s).length = 4 * s.length := by
  intro s
  induction s with
  | nil => rfl
  | cons w ws ih => simp [compress_state, List.length_cons, ih]; omega

theorem process_block_length (f : Nat → Nat → Nat → Int) (state blk : List Nat) :
    (process_block f state blk).length = 16 := by
  have h1 : (derive_permutation blk).length = 16 := by
    rw [(derive_permutation_perm blk).length_eq, List.length_range]
  simp only [process_block, diffuse]
  rw [partialDiffuse_length, apply_perm_length, h1]

theorem foldl_process_length (f : Nat → Nat → Nat → Int) :
    ∀ (bs : List (List Nat)) (s : List Nat), s.length = 16 →
      (bs.foldl (process_block f) s).length = 16 := by
  intro bs
  induction bs with
  | nil => intro s hs; exact hs
  | cons b t ih => intro s _; rw [List.foldl_cons]; exact ih _ (process_block_length f s b)

/-- Claim C1: for every input byte sequence (and every instantiation of the
Phase C quantity), `cos_hash` returns exactly 64 bytes: 16 state words of
4 bytes each. -/
theorem cos_hash_output_length (f : Nat → Nat → Nat → Int) (input : List Nat) :
    (cos_hash f input).length = 64 := by
  simp only [cos_hash]
  rw [compress_state_length, foldl_process_length f _ _ (by simp)]

/-! ### Dead fallback branches -/

theorem toBlocks_mem_length : ∀ (n : Nat) (l : List Nat), l.length = 64 * n →
    ∀ b ∈ toBlocks n l, b.length = 64 := by
  intro n
  induction n with
  | zero => intro l _ b hb; simp [toBlocks] at hb
  | succ m ih =>
    intro l hl b hb
    simp only [toBlocks, List.mem_cons] at hb
    rcases hb with hb | hb
    · subst hb; simp [List.length_take]; omega
    · exact ih (l.drop 64) (by simp [List.length_drop]; omega) b hb

theorem pad_input_length_mod (input : List Nat) : (pad_input input).length % 64 = 0 := by
  rw [pad_input_eq]
  simp only [List.length_append, List.length_cons, List.length_replicate]
  omega

/-- Claim C8: every block `cos_hash` processes has exactly 64 bytes, and on
64-byte blocks the insufficient-bytes fallbacks are never taken:
`derive_params` returns the three big-endian words (never the default
constants) and every absorb segment is the big-endian 4-byte read (never
the trailing-bytes packing). -/
theorem fallback_branches_dead :
    (∀ input : List Nat, ∀ b ∈ blocksOf (pad_input input), b.length = 64)
    ∧ ∀ blk : List Nat, blk.length = 64 →
        derive_params blk = (be32 blk 0, be32 blk 4, be32 blk 8)
        ∧ ∀ i : Nat, i < 16 → absorb_word blk i = be32 blk (i * 4) := by
  constructor
  · intro input b hb
    simp only [blocksOf] at hb
    have hm := pad_input_length_mod input
    exact toBlocks_mem_length ((pad_input input).length / 64) (pad_input input)
      (by omega) b hb
  · intro blk hb
    constructor
    · rw [derive_params, if_pos (by omega), if_pos (by omega), if_pos (by omega)]
    · intro i hi
      rw [absorb_word, if_pos (by omega)]

/-- Witness for C8 at the single block of the padded empty input. -/
theorem fallback_branches_dead_witness :
    (0x80 :: List.replicate 63 0).length = 64
    ∧ derive_params (0x80 :: List.replicate 63 0)
        = (be32 (0x80 :: List.replicate 63 0) 0, be32 (0x80 :: List.replicate 63 0) 4,
            be32 (0x80 :: List.replicate 63 0) 8) :=
  ⟨fallback_branches_dead.1 [] (0x80 :: List.replicate 63 0) (by decide),
    (fallback_branches_dead.2 (0x80 :: List.replicate 63 0) (by decide)).1⟩

/-! ### Diffuse phase: in-place neighbor reads -/

theorem getD_set_ne (l : List Nat) (i j v : Nat) (h : i ≠ j) :
    (l.set i v).getD j 0 = l.getD j 0 := by
  rw [List.getD_eq_getElem?_getD, List.getD_eq_getElem?_getD, List.getElem?_set_ne h]

theorem getD_set_self (l : List Nat) (i v : Nat) (h : i < l.length) :
    (l.set i v).getD i 0 = v := by
  rw [List.getD_eq_getElem?_getD, List.getElem?_set_eq_of_lt v h]
  rfl

theorem partialDiffuse_succ (k : Nat) (s : List Nat) :
    partialDiffuse (k + 1) s = diffuse_step (partialDiffuse k s) k := by
  rw [partialDiffuse, partialDiffuse, List.range_succ, List.foldl_append]
  rfl

theorem partialDiffuse_getD_of_le (s : List Nat) :
    ∀ (k i : Nat), k ≤ i → (partialDiffuse k s).getD i 0 = s.getD i 0 := by
  intro k
  induction k with
  | zero => intro i _; rfl
  | succ n ih =>
    intro i hi
    rw [partialDiffuse_succ, diffuse_step, getD_set_ne _ _ _ _ (by omega), ih i (by omega)]

theorem partialDiffuse_getD_stable (s : List Nat) :
    ∀ (k i : Nat), i < k →
      (partialDiffuse k s).getD i 0 = (partialDiffuse (i + 1) s).getD i 0 := by
  intro k
  induction k with
  | zero => intro i hi; omega
  | succ n ih =>
    intro i hi
    rcases Nat.lt_or_ge i n with h | h
    · rw [partialDiffuse_succ, diffuse_step, getD_set_ne _ _ _ _ (by omega), ih i h]
    · have hin : i = n := by omega
      subst hin
      rfl

/-- Claim C6: the diffuse phase updates the 16 state words in place in
ascending index order: for `i < 15` the neighbor read is the
not-yet-diffused value of `state[i+1]`, while for `i = 15` the neighbor is
the already-diffused value of `state[0]`. -/
theorem diffuse_neighbor_order (state : List Nat) (h : state.length = 16) :
    (∀ i : Nat, i < 15 →
      (diffuse state).getD i 0
        = state.getD i 0 ^^^ rotate_left (state.getD (i + 1) 0) (state.getD i 0 &&& 0x1F))
    ∧ (diffuse state).getD 15 0
        = state.getD 15 0
            ^^^ rotate_left ((diffuse state).getD 0 0) (state.getD 15 0 &&& 0x1F) := by
  have hlen : ∀ k, (partialDiffuse k state).length = 16 := fun k => by
    rw [partialDiffuse_length, h]
  constructor
  · intro i hi
    rw [diffuse, partialDiffuse_getD_stable state 16 i (by omega), partialDiffuse_succ,
      diffuse_step, getD_set_self _ _ _ (by rw [hlen]; omega),
      show (i + 1) % 16 = i + 1 from Nat.mod_eq_of_lt (by omega),
      partialDiffuse_getD_of_le state i i (le_refl i),
      partialDiffuse_getD_of_le state i (i + 1) (by omega)]
  · have ha := partialDiffuse_getD_stable state 16 0 (by omega)
    have hb := partialDiffuse_getD_stable state 15 0 (by omega)
    have h0 : (diffuse state).getD 0 0 = (partialDiffuse 15 state).getD 0 0 := by
      rw [diffuse, ha, hb]
    rw [h0]
    rw [show diffuse state = diffuse_step (partialDiffuse 15 state) 15 from
      partialDiffuse_succ 15 state]
    rw [diffuse_step, getD_set_self _ _ _ (by rw [hlen]; omega),
      show (15 + 1) % 16 = 0 from rfl,
      partialDiffuse_getD_of_le state 15 15 (le_refl 15)]

/-- Witness for C6 at a concrete 16-word state. -/
theorem diffuse_neighbor_order_witness :
    (diffuse [1, 2, 3, 4, 5, 6, 7, 8, 9, 10, 11, 12, 13, 14, 15, 16]).getD 0 0
      = [1, 2, 3, 4, 5, 6, 7, 8, 9, 10, 11, 12, 13, 14, 15, 16].getD 0 0
          ^^^ rotate_left ([1, 2, 3, 4, 5, 6, 7, 8, 9, 10, 11, 12, 13, 14, 15, 16].getD 1 0)
            ([1, 2, 3, 4, 5, 6, 7, 8, 9, 10, 11, 12, 13, 14, 15, 16].getD 0 0 &&& 0x1F) :=
  (diffuse_neighbor_order [1, 2, 3, 4, 5, 6, 7, 8, 9, 10, 11, 12, 13, 14, 15, 16]
    (by decide)).1 0 (by decide)
